import Mathlib

/-!
Verification development for the Markdown readability scorer
(`commit_readability_history.py`): a shallow embedding of the
text-normalization pipeline (`markdown_to_text`) and the composite
scorer (`calculate_readability`, `normalize_score`,
`readability_metrics`), with theorems settling the specification's
claims about them.

Strings are modelled as `List Char`.  The external collaborators
(the Markdown renderer and the five textstat formulas) are
parameters of the embedding; where a claim needs their concrete
behavior they are modelled from the spec's description of the
collaborator interface.
-/

/-- The backtick character (code point 96), written via `Char.ofNat`. -/
def backtick : Char := Char.ofNat 96

/-- Whitespace as recognized by Python's `str.strip` / regex `\s`
(ASCII part): space, tab, newline, carriage return, vertical tab, form feed. -/
def isPySpace (c : Char) : Bool :=
  (c == ' ') || (c == '\t') || (c == '\n') || (c == '\r') || (c == '\x0b') || (c == '\x0c')

/-- ASCII alphabetic character, the class `[a-zA-Z]` of the
line-unwrapping regex. -/
def isAsciiAlpha (c : Char) : Bool :=
  (('a' ≤ c) && (c ≤ 'z')) || (('A' ≤ c) && (c ≤ 'Z'))

/-- Python `str.strip()`: drop leading and trailing whitespace. -/
def pyStrip (l : List Char) : List Char :=
  (((l.dropWhile isPySpace).reverse).dropWhile isPySpace).reverse

/-- Tests whether `pat` occurs at the very start of `s`. -/
def leadsWith : List Char → List Char → Bool
  | [], _ => true
  | _ :: _, [] => false
  | p :: ps, c :: cs => (p == c) && leadsWith ps cs

/-- Tests whether `pat` occurs as a contiguous substring of `s`. -/
def containsStr : List Char → List Char → Bool
  | [], pat => pat.isEmpty
  | c :: rest, pat => leadsWith pat (c :: rest) || containsStr rest pat

/-!
## Fenced code block removal

The source performs
`re.sub(r"(^|\n)\s*` ``(?:[^\n]*)?\n[\s\S]*?\n\s*` `` ", "\n", s, flags=re.MULTILINE)`
(backticks tripled in the actual pattern).  The functions below are a
faithful executable model of that substitution: leftmost scanning, the
`^`-or-`\n` anchor alternation, greedy `\s*` before the opening and
closing fences, greedy `[^\n]*` for the language tag, and the
non-greedy `[\s\S]*?` that selects the earliest possible closing
fence.
-/

/-- Recognizes three leading backticks and returns the remainder. -/
def tripleTick : List Char → Option (List Char)
  | c1 :: c2 :: c3 :: rest =>
    if c1 == backtick && c2 == backtick && c3 == backtick then some rest else none
  | _ => none

/-- Closing-fence test at one candidate position: a newline, then
optional whitespace (`\s*`), then three backticks; returns the
remainder after the fence. -/
def closeAt : List Char → Option (List Char)
  | [] => none
  | c :: rest => if c == '\n' then tripleTick (rest.dropWhile isPySpace) else none

/-- Non-greedy search (`[\s\S]*?`) for the earliest closing fence. -/
def findClose : List Char → Option (List Char)
  | [] => none
  | c :: rest =>
    match closeAt (c :: rest) with
    | some r => some r
    | none => findClose rest

/-- Matches the fence body after the `(^|\n)` anchor: `\s*`, three
backticks, the rest of the opening line (`(?:[^\n]*)?`), a newline, and
then the earliest closing fence.  Returns the text after the match. -/
def fenceAfterAnchor (l : List Char) : Option (List Char) :=
  match tripleTick (l.dropWhile isPySpace) with
  | some rest =>
    match rest.dropWhile (fun c => !(c == '\n')) with
    | d :: rest3 => if d == '\n' then findClose rest3 else none
    | [] => none
  | none => none

/-- One match attempt at the current scan position.  `canAnchor` is
true when `^` applies here (start of string, or just after a newline,
per `re.MULTILINE`); otherwise the `\n` alternative must consume a
literal newline. -/
def matchHere (canAnchor : Bool) (l : List Char) : Option (List Char) :=
  if canAnchor then fenceAfterAnchor l
  else
    match l with
    | c :: rest => if c == '\n' then fenceAfterAnchor rest else none
    | [] => none

theorem length_dropWhile_le (p : Char → Bool) (l : List Char) :
    (l.dropWhile p).length ≤ l.length :=
  (List.dropWhile_sublist p).length_le

theorem tripleTick_length : ∀ {l r : List Char}, tripleTick l = some r → r.length + 3 ≤ l.length
  | c1 :: c2 :: c3 :: rest, r, h => by
    simp only [tripleTick] at h
    split at h
    · cases h; simp
    · exact absurd h (by simp)
  | [], _, h => by simp [tripleTick] at h
  | [c1], _, h => by simp [tripleTick] at h
  | [c1, c2], _, h => by simp [tripleTick] at h

theorem closeAt_length {l r : List Char} (h : closeAt l = some r) :
    r.length < l.length := by
  cases l with
  | nil => simp [closeAt] at h
  | cons c rest =>
    simp only [closeAt] at h
    split at h
    · have h1 := tripleTick_length h
      have h2 := length_dropWhile_le isPySpace rest
      simp only [List.length_cons]
      omega
    · exact absurd h (by simp)

theorem findClose_length {l r : List Char} (h : findClose l = some r) :
    r.length < l.length := by
  induction l with
  | nil => simp [findClose] at h
  | cons c rest ih =>
    unfold findClose at h
    split at h
    · rename_i r' hc
      cases h
      exact closeAt_length hc
    · have := ih h
      simp only [List.length_cons]
      omega

theorem fenceAfterAnchor_length {l r : List Char} (h : fenceAfterAnchor l = some r) :
    r.length < l.length := by
  unfold fenceAfterAnchor at h
  split at h
  · rename_i rest htt
    have h1 := tripleTick_length htt
    have h2 := length_dropWhile_le isPySpace l
    split at h
    · rename_i d rest3 hdw2
      split at h
      · have h3 : rest3.length + 1 ≤ rest.length := by
          have := length_dropWhile_le (fun c => !(c == '\n')) rest
          rw [hdw2] at this
          simpa using this
        have h4 := findClose_length h
        omega
      · exact absurd h (by simp)
    · exact absurd h (by simp)
  · exact absurd h (by simp)

theorem matchHere_length {b : Bool} {l r : List Char} (h : matchHere b l = some r) :
    r.length < l.length := by
  unfold matchHere at h
  split at h
  · exact fenceAfterAnchor_length h
  · split at h
    · rename_i rest
      split at h
      · have := fenceAfterAnchor_length h
        simp only [List.length_cons]
        omega
      · exact absurd h (by simp)
    · exact absurd h (by simp)

/-- The scan loop of the substitution: at each position try a match;
on success emit the replacement `"\n"` and resume after the match
(where `^` no longer applies), otherwise emit the character and move
on. -/
def subFencesAux (b : Bool) (l : List Char) : List Char :=
  match l with
  | [] => []
  | c :: rest =>
    match h : matchHere b (c :: rest) with
    | some after => '\n' :: subFencesAux false after
    | none => c :: subFencesAux (c == '\n') rest
termination_by l.length
decreasing_by
  · simpa using matchHere_length h
  · simp

/-- Step 1 of `markdown_to_text`: remove fenced code blocks,
replacing each match with a single newline. -/
def stripFences (l : List Char) : List Char := subFencesAux true l

/-!
## The HTML tree and the soup-filtering stage

`markdown(...)` renders the fence-stripped Markdown to HTML and
BeautifulSoup parses it into a tree of elements and text nodes.  The
tree is modelled by `Node`/`Forest`; the renderer itself is an
external collaborator and is kept abstract (a parameter
`render : List Char → Forest`).
-/

mutual
inductive Node where
  | text : List Char → Node
  | elem : String → Forest → Node
inductive Forest where
  | nil : Forest
  | cons : Node → Forest → Forest
end

/-- Builds a `Forest` from a list of nodes (presentation helper). -/
def forestOf (l : List Node) : Forest := l.foldr Forest.cons Forest.nil

/-- Tags decomposed by `soup.find_all([...]).decompose()` in
`markdown_to_text`. -/
def removedTags : List String :=
  ["table", "script", "blockquote", "hr", "img", "ul", "ol", "li", "h1", "h2", "h3", "h4", "h5", "h6"]

/-- The decompose pass: every element whose tag is in `removedTags` is
removed together with its whole subtree. -/
def stripForest : Forest → Forest
  | Forest.nil => Forest.nil
  | Forest.cons (Node.text s) rest => Forest.cons (Node.text s) (stripForest rest)
  | Forest.cons (Node.elem tag kids) rest =>
    if tag ∈ removedTags then stripForest rest
    else Forest.cons (Node.elem tag (stripForest kids)) (stripForest rest)

/-- `tag.get_text()`: all text content of a subtree, concatenated in
document order with no separator. -/
def getAllText : Forest → List Char
  | Forest.nil => []
  | Forest.cons (Node.text s) rest => s ++ getAllText rest
  | Forest.cons (Node.elem _ kids) rest => getAllText kids ++ getAllText rest

/-- The hyperlink pass: each `<a>` element is replaced by a text node
holding its own inner text (`tag.replace_with(tag.get_text())`). -/
def unwrapAnchors : Forest → Forest
  | Forest.nil => Forest.nil
  | Forest.cons (Node.text s) rest => Forest.cons (Node.text s) (unwrapAnchors rest)
  | Forest.cons (Node.elem tag kids) rest =>
    if tag = "a" then Forest.cons (Node.text (getAllText kids)) (unwrapAnchors rest)
    else Forest.cons (Node.elem tag (unwrapAnchors kids)) (unwrapAnchors rest)

/-- Text extraction `''.join(soup.stripped_strings)`: every text node
in document order, each stripped of surrounding whitespace, joined
with no separator (whitespace-only nodes contribute nothing). -/
def strippedJoin : Forest → List Char
  | Forest.nil => []
  | Forest.cons (Node.text s) rest => pyStrip s ++ strippedJoin rest
  | Forest.cons (Node.elem _ kids) rest => strippedJoin kids ++ strippedJoin rest

/-!
## Final text post-processing

Three further substitutions on the extracted text:
template-tag removal, newline-run collapse, and hard-wrap unwrapping.
-/

/-- Finds the earliest `%}` terminator (the non-greedy `[\s\S]*?%}`)
and returns the remainder after it. -/
def findTemplEnd : List Char → Option (List Char)
  | [] => none
  | [_] => none
  | c :: d :: rest =>
    if c == '%' && d == '}' then some rest else findTemplEnd (d :: rest)

/-- Fuel-indexed scan loop of the template removal; one unit of fuel
is spent per emitted character or per removed template, so fuel equal
to the input length always suffices. -/
def stripTemplatesF : Nat → List Char → List Char
  | 0, l => l
  | _ + 1, [] => []
  | fuel + 1, c :: rest =>
    if c == '{' then
      match rest with
      | d :: rest2 =>
        if d == '%' then
          match findTemplEnd rest2 with
          | some r => stripTemplatesF fuel r
          | none => c :: stripTemplatesF fuel rest
        else c :: stripTemplatesF fuel rest
      | [] => [c]
    else c :: stripTemplatesF fuel rest

/-- Removes every template marker, the substitution
`re.sub(r'\x7b%[\s\S]*?%\x7d', '', text)`. -/
def stripTemplates (l : List Char) : List Char := stripTemplatesF l.length l

/-- Collapses runs of newlines, the substitution `\n+` to `\n`:
a newline immediately followed by another newline is dropped. -/
def collapseNewlines : List Char → List Char
  | [] => []
  | [c] => [c]
  | c :: d :: rest =>
    if c == '\n' && d == '\n' then collapseNewlines (d :: rest)
    else c :: collapseNewlines (d :: rest)

/-- Hard-wrap unwrapping, the substitution of `([a-zA-Z])\n` by the
captured letter and a space, with the regex engine's left-to-right
non-overlapping scan. -/
def unwrapHardBreaks : List Char → List Char
  | [] => []
  | [c] => [c]
  | c :: d :: rest =>
    if isAsciiAlpha c && d == '\n' then c :: ' ' :: unwrapHardBreaks rest
    else c :: unwrapHardBreaks (d :: rest)

/-- The full normalizer `markdown_to_text`, parametric in the external
Markdown renderer: fence stripping, rendering, decompose pass,
hyperlink unwrapping, stripped-string extraction, template removal,
newline collapse, hard-wrap unwrapping — in the source's order. -/
def markdown_to_text (render : List Char → Forest) (s : List Char) : List Char :=
  unwrapHardBreaks (collapseNewlines (stripTemplates
    (strippedJoin (unwrapAnchors (stripForest (render (stripFences s)))))))

/-!
## The composite scorer

The metric table, normalization and weighted sum of
`calculate_readability`, over exact rationals.  The five textstat
formulas are external pure functions of the text, kept abstract in a
`Textstat` parameter.
-/

/-- One row of `readability_metrics`: weight and calibration bounds. -/
structure MetricBounds where
  weight : ℚ
  min : ℚ
  max : ℚ
deriving DecidableEq

/-- The fixed metric table, in the source's (insertion) order. -/
def readability_metrics : List (String × MetricBounds) :=
  [("flesch_reading_ease", ⟨0.1653977378, 0, 100⟩),
   ("gunning_fog", ⟨0.2228367277, 19, 6⟩),
   ("coleman_liau_index", ⟨0.1831723411, 19, 6⟩),
   ("automated_readability_index", ⟨0.2325290236, 22, 6⟩),
   ("dale_chall_readability_score", ⟨0.1960641698, 11, 4.9⟩)]

/-- Linear normalization of a raw score to the calibration range. -/
def normalize_score (score min_val max_val : ℚ) : ℚ :=
  (score - min_val) / (max_val - min_val)

/-- The five raw metric values computed for one text. -/
structure TextstatScores where
  flesch_reading_ease : ℚ
  gunning_fog : ℚ
  coleman_liau_index : ℚ
  automated_readability_index : ℚ
  dale_chall_readability_score : ℚ

/-- The external textstat formulas as pure functions of the text. -/
structure Textstat where
  flesch_reading_ease : List Char → ℚ
  gunning_fog : List Char → ℚ
  coleman_liau_index : List Char → ℚ
  automated_readability_index : List Char → ℚ
  dale_chall_readability_score : List Char → ℚ

/-- The `scores` dictionary built in `calculate_readability`. -/
def mkScores (ts : Textstat) (text : List Char) : TextstatScores :=
  ⟨ts.flesch_reading_ease text, ts.gunning_fog text, ts.coleman_liau_index text,
   ts.automated_readability_index text, ts.dale_chall_readability_score text⟩

/-- Dictionary lookup `scores.get(metric, 0)`. -/
def scoresGet (s : TextstatScores) (name : String) : ℚ :=
  if name = "flesch_reading_ease" then s.flesch_reading_ease
  else if name = "gunning_fog" then s.gunning_fog
  else if name = "coleman_liau_index" then s.coleman_liau_index
  else if name = "automated_readability_index" then s.automated_readability_index
  else if name = "dale_chall_readability_score" then s.dale_chall_readability_score
  else 0

/-- The accumulation loop over `readability_metrics` followed by the
scaling `* 100`. -/
def compositeOfScores (s : TextstatScores) : ℚ :=
  (readability_metrics.foldl
    (fun acc p => acc + p.2.weight * normalize_score (scoresGet s p.1) p.2.min p.2.max)
    0) * 100

/-- `calculate_readability`: normalize the Markdown content, compute
the five raw scores, and combine them. -/
def calculate_readability (ts : Textstat) (render : List Char → Forest)
    (content : List Char) : ℚ :=
  compositeOfScores (mkScores ts (markdown_to_text render content))

/-- Division-checked normalization: `none` models Python raising
`ZeroDivisionError` when the calibration range is empty. -/
def normalize_score_checked (score min_val max_val : ℚ) : Option ℚ :=
  if max_val - min_val = 0 then none
  else some ((score - min_val) / (max_val - min_val))

/-- The scorer's accumulation loop with division checked. -/
def compositeOfScoresChecked (s : TextstatScores) : Option ℚ :=
  (readability_metrics.foldl
    (fun acc p => acc.bind fun a =>
      (normalize_score_checked (scoresGet s p.1) p.2.min p.2.max).map fun n =>
        a + p.2.weight * n)
    (some 0)).map (· * 100)

/-- `calculate_readability` with every division checked. -/
def calculate_readability_checked (ts : Textstat) (render : List Char → Forest)
    (content : List Char) : Option ℚ :=
  compositeOfScoresChecked (mkScores ts (markdown_to_text render content))

/-!
## Unfolding lemmas for the fence-stripping scan
-/

theorem subFencesAux_nil (b : Bool) : subFencesAux b [] = [] := by
  rw [subFencesAux.eq_def]

theorem subFencesAux_some {b : Bool} {c : Char} {rest after : List Char}
    (h : matchHere b (c :: rest) = some after) :
    subFencesAux b (c :: rest) = '\n' :: subFencesAux false after := by
  conv_lhs => rw [subFencesAux.eq_def]
  split
  · rename_i heq
    exact absurd heq (by simp)
  · rename_i c2 rest2 heq
    injection heq with h1 h2
    subst h1; subst h2
    split
    · rename_i after2 heq2
      rw [h] at heq2
      injection heq2 with h3
      rw [h3]
    · rename_i heq2
      rw [h] at heq2
      exact absurd heq2 (by simp)

theorem subFencesAux_none {b : Bool} {c : Char} {rest : List Char}
    (h : matchHere b (c :: rest) = none) :
    subFencesAux b (c :: rest) = c :: subFencesAux (c == '\n') rest := by
  conv_lhs => rw [subFencesAux.eq_def]
  split
  · rename_i heq
    exact absurd heq (by simp)
  · rename_i c2 rest2 heq
    injection heq with h1 h2
    subst h1; subst h2
    split
    · rename_i after2 heq2
      rw [h] at heq2
      exact absurd heq2 (by simp)
    · rfl

theorem tripleTick_eq_none_of_no_tick :
    ∀ {l : List Char}, backtick ∉ l → tripleTick l = none
  | [], _ => rfl
  | [_], _ => rfl
  | [_, _], _ => rfl
  | c1 :: c2 :: c3 :: rest, h => by
    simp only [tripleTick]
    have h1 : c1 ≠ backtick := fun he => h (he ▸ List.mem_cons_self c1 _)
    have : (c1 == backtick) = false := by simpa using h1
    simp [this]

theorem fenceAfterAnchor_eq_none_of_no_tick {l : List Char} (h : backtick ∉ l) :
    fenceAfterAnchor l = none := by
  unfold fenceAfterAnchor
  have hdw : backtick ∉ l.dropWhile isPySpace :=
    fun hm => h ((List.dropWhile_sublist isPySpace).subset hm)
  rw [tripleTick_eq_none_of_no_tick hdw]

theorem matchHere_eq_none_of_no_tick {b : Bool} {l : List Char} (h : backtick ∉ l) :
    matchHere b l = none := by
  unfold matchHere
  split
  · exact fenceAfterAnchor_eq_none_of_no_tick h
  · split
    · rename_i c rest
      split
      · exact fenceAfterAnchor_eq_none_of_no_tick
          (fun hm => h (List.mem_cons_of_mem c hm))
      · rfl
    · rfl

theorem subFencesAux_id_of_no_tick {l : List Char} (h : backtick ∉ l) (b : Bool) :
    subFencesAux b l = l := by
  induction l generalizing b with
  | nil => exact subFencesAux_nil b
  | cons c rest ih =>
    rw [subFencesAux_none (matchHere_eq_none_of_no_tick h)]
    have : backtick ∉ rest := fun hm => h (List.mem_cons_of_mem c hm)
    rw [ih this]

/-- On backtick-free input the fence substitution is the identity. -/
theorem stripFences_id_of_no_tick {l : List Char} (h : backtick ∉ l) :
    stripFences l = l :=
  subFencesAux_id_of_no_tick h true

/-!
## Spec-modelled Markdown renderer for the concrete test inputs

Modelled from the spec: the external `markdown` library renderer
(§4.1 step 2, §6) is not part of this repository; for the spec's
concrete test inputs its output tree under standard Markdown
semantics (headings, emphasis, links, tables) is given explicitly,
and any other input is rendered as one paragraph of plain text.
-/

/-- Modelled from the spec: the Markdown-to-HTML-tree rendering of the
concrete test inputs used by the claims (standard Markdown semantics;
the renderer itself is an external collaborator absent from the
source). -/
def mdRender (s : List Char) : Forest :=
  if s = ("# Heading\n\nSome **bold** text.").data then
    forestOf [Node.elem "h1" (forestOf [Node.text ("Heading").data]),
      Node.text ("\n").data,
      Node.elem "p" (forestOf [Node.text ("Some ").data,
        Node.elem "strong" (forestOf [Node.text ("bold").data]),
        Node.text (" text.").data])]
  else if s = ("[label](http://example.com)").data then
    forestOf [Node.elem "p" (forestOf [Node.elem "a" (forestOf [Node.text ("label").data])])]
  else if s = ("| a | b |\n|---|---|\n| 1 | 2 |").data then
    forestOf [Node.elem "table" (forestOf [
      Node.elem "thead" (forestOf [Node.elem "tr" (forestOf [
        Node.elem "th" (forestOf [Node.text ("a").data]),
        Node.elem "th" (forestOf [Node.text ("b").data])])]),
      Node.elem "tbody" (forestOf [Node.elem "tr" (forestOf [
        Node.elem "td" (forestOf [Node.text ("1").data]),
        Node.elem "td" (forestOf [Node.text ("2").data])])])])]
  else forestOf [Node.elem "p" (forestOf [Node.text s])]

/-!
## Helper lemmas
-/

/-- Detects a newline immediately preceded by an ASCII letter. -/
def hasAlphaNL : List Char → Bool
  | [] => false
  | [_] => false
  | c :: d :: rest => (isAsciiAlpha c && d == '\n') || hasAlphaNL (d :: rest)

/-- Replaces the children of every removed-tag element by the empty
forest, leaving the rest of the tree intact. -/
def pruneRemoved : Forest → Forest
  | Forest.nil => Forest.nil
  | Forest.cons (Node.text s) rest => Forest.cons (Node.text s) (pruneRemoved rest)
  | Forest.cons (Node.elem tag kids) rest =>
    if tag ∈ removedTags then Forest.cons (Node.elem tag Forest.nil) (pruneRemoved rest)
    else Forest.cons (Node.elem tag (pruneRemoved kids)) (pruneRemoved rest)

theorem dropWhile_append_left (p : Char → Bool) {xs : List Char} (ys : List Char)
    (h : xs.dropWhile p ≠ []) :
    (xs ++ ys).dropWhile p = xs.dropWhile p ++ ys := by
  rw [List.dropWhile_append, if_neg]
  simpa [List.isEmpty_iff] using h

theorem dropWhile_append_right (p : Char → Bool) {xs : List Char} (ys : List Char)
    (h : xs.dropWhile p = []) :
    (xs ++ ys).dropWhile p = ys.dropWhile p := by
  rw [List.dropWhile_append, if_pos]
  simp [List.isEmpty_iff, h]

theorem getLastD_irrel : ∀ {ys : List Char}, ys ≠ [] → ∀ a b : Char, ys.getLastD a = ys.getLastD b
  | [], h, _, _ => absurd rfl h
  | [_], _, _, _ => rfl
  | c :: d :: rest, _, a, b =>
    (List.getLastD_cons a c (d :: rest)).trans (List.getLastD_cons b c (d :: rest)).symm

theorem dropWhile_ws_ne_nil : ∀ {ys : List Char}, ys ≠ [] →
    isPySpace (ys.getLastD ' ') = false → ys.dropWhile isPySpace ≠ []
  | [], h, _ => absurd rfl h
  | c :: ys', _, hlast => by
    rw [List.dropWhile_cons]
    split
    · rename_i hc
      cases ys'_eq : ys' with
      | nil =>
        subst ys'_eq
        simp only [List.getLastD_cons, List.getLastD_nil] at hlast
        rw [hlast] at hc
        cases hc
      | cons d ys'' =>
        subst ys'_eq
        have h1 : (d :: ys'') ≠ ([] : List Char) := by simp
        have h2 : isPySpace ((d :: ys'').getLastD ' ') = false := by
          rw [getLastD_irrel h1 ' ' c, ← List.getLastD_cons]
          exact hlast
        exact dropWhile_ws_ne_nil h1 h2
    · simp

theorem tripleTick_cons_ne {c : Char} (h : (c == backtick) = false) :
    ∀ l : List Char, tripleTick (c :: l) = none
  | [] => rfl
  | [_] => rfl
  | _ :: _ :: _ => by simp [tripleTick, h]

theorem closeAt_cons_ne {c : Char} {l : List Char} (h : (c == '\n') = false) :
    closeAt (c :: l) = none := by
  simp [closeAt, h]

theorem fenceAfterAnchor_append_none {ys : List Char} (tail : List Char) (hne : ys ≠ [])
    (hbt : backtick ∉ ys) (hlast : isPySpace (ys.getLastD ' ') = false) :
    fenceAfterAnchor (ys ++ tail) = none := by
  have h1 : ys.dropWhile isPySpace ≠ [] := dropWhile_ws_ne_nil hne hlast
  unfold fenceAfterAnchor
  rw [dropWhile_append_left _ _ h1]
  obtain ⟨c, r, hcr⟩ : ∃ c r, ys.dropWhile isPySpace = c :: r := by
    cases hc : ys.dropWhile isPySpace with
    | nil => exact absurd hc h1
    | cons a b => exact ⟨a, b, rfl⟩
  rw [hcr]
  have hc_mem : c ∈ ys := (List.dropWhile_sublist _).subset (by rw [hcr]; exact List.mem_cons_self c r)
  have hcb : (c == backtick) = false := by
    simp only [beq_eq_false_iff_ne, ne_eq]
    exact fun he => hbt (he ▸ hc_mem)
  rw [List.cons_append, tripleTick_cons_ne hcb]

theorem matchHere_append_none {ys : List Char} (tail : List Char) (b : Bool) (hne : ys ≠ [])
    (hbt : backtick ∉ ys) (hlast : isPySpace (ys.getLastD ' ') = false) :
    matchHere b (ys ++ tail) = none := by
  unfold matchHere
  split
  · exact fenceAfterAnchor_append_none tail hne hbt hlast
  · cases ys with
    | nil => exact absurd rfl hne
    | cons c ys' =>
      rw [List.cons_append]
      show (if c == '\n' then fenceAfterAnchor (ys' ++ tail) else none) = none
      by_cases hc : c = '\n'
      · subst hc
        show fenceAfterAnchor (ys' ++ tail) = none
        cases ys'_eq : ys' with
        | nil =>
          subst ys'_eq
          simp [List.getLastD_cons, List.getLastD_nil, isPySpace] at hlast
        | cons d ys'' =>
          subst ys'_eq
          have h1 : (d :: ys'') ≠ ([] : List Char) := by simp
          have h2 : backtick ∉ d :: ys'' := fun hm => hbt (List.mem_cons_of_mem _ hm)
          have h3 : isPySpace ((d :: ys'').getLastD ' ') = false := by
            rw [getLastD_irrel h1 ' ' '\n', ← List.getLastD_cons]
            exact hlast
          exact fenceAfterAnchor_append_none tail h1 h2 h3
      · have : (c == '\n') = false := by simpa using hc
        rw [this]
        simp

theorem subFencesAux_emit (tail : List Char) :
    ∀ ys : List Char, ys ≠ [] → backtick ∉ ys → isPySpace (ys.getLastD ' ') = false →
      ∀ b, subFencesAux b (ys ++ tail) = ys ++ subFencesAux false tail := by
  intro ys
  induction ys with
  | nil => intro h; exact absurd rfl h
  | cons c ys' ih =>
    intro _ hbt hlast b
    have hm : matchHere b ((c :: ys') ++ tail) = none :=
      matchHere_append_none tail b (by simp) hbt hlast
    rw [List.cons_append] at hm
    rw [List.cons_append, subFencesAux_none hm]
    cases ys'_eq : ys' with
    | nil =>
      subst ys'_eq
      simp only [List.getLastD_cons, List.getLastD_nil] at hlast
      have hc : (c == '\n') = false := by
        rw [beq_eq_false_iff_ne]
        intro hcc
        rw [hcc] at hlast
        exact absurd hlast (by decide)
      rw [hc]
      rfl
    | cons d ys'' =>
      subst ys'_eq
      have h1 : (d :: ys'') ≠ ([] : List Char) := by simp
      have h2 : backtick ∉ d :: ys'' := fun hm2 => hbt (List.mem_cons_of_mem _ hm2)
      have h3 : isPySpace ((d :: ys'').getLastD ' ') = false := by
        rw [getLastD_irrel h1 ' ' c, ← List.getLastD_cons]
        exact hlast
      rw [ih h1 h2 h3]
      rfl

theorem dropWhile_to_nl {lang : List Char} (h : '\n' ∉ lang) (r : List Char) :
    (lang ++ '\n' :: r).dropWhile (fun c => !(c == '\n')) = '\n' :: r := by
  rw [dropWhile_append_right]
  · rw [List.dropWhile_cons_of_neg]
    simp
  · rw [List.dropWhile_eq_nil_iff]
    intro x hx
    simp only [Bool.not_eq_true']
    rw [beq_eq_false_iff_ne]
    exact fun he => h (he ▸ hx)

theorem findClose_clean : ∀ (body : List Char), backtick ∉ body → ∀ post : List Char,
    findClose (body ++ '\n' :: backtick :: backtick :: backtick :: post) = some post
  | [], _, post => rfl
  | c :: body', hbt, post => by
    have hbt' : backtick ∉ body' := fun hm => hbt (List.mem_cons_of_mem _ hm)
    rw [List.cons_append]
    by_cases hc : c = '\n'
    · subst hc
      unfold findClose
      cases hdw : body'.dropWhile isPySpace with
      | nil =>
        have h1 : closeAt ('\n' :: (body' ++ '\n' :: backtick :: backtick :: backtick :: post))
            = some post := by
          show (if ('\n' == '\n') then
            tripleTick ((body' ++ '\n' :: backtick :: backtick :: backtick :: post).dropWhile
              isPySpace)
            else none) = some post
          rw [if_pos (by decide)]
          rw [dropWhile_append_right _ _ hdw]
          rfl
        rw [h1]
      | cons e r =>
        have hne : body'.dropWhile isPySpace ≠ [] := by rw [hdw]; simp
        have h1 : closeAt ('\n' :: (body' ++ '\n' :: backtick :: backtick :: backtick :: post))
            = none := by
          show (if ('\n' == '\n') then
            tripleTick ((body' ++ '\n' :: backtick :: backtick :: backtick :: post).dropWhile
              isPySpace)
            else none) = none
          rw [if_pos (by decide)]
          rw [dropWhile_append_left _ _ hne, hdw]
          have he_mem : e ∈ body' := (List.dropWhile_sublist _).subset
            (by rw [hdw]; exact List.mem_cons_self e r)
          have heb : (e == backtick) = false := by
            rw [beq_eq_false_iff_ne]
            exact fun hee => hbt' (hee ▸ he_mem)
          rw [List.cons_append, tripleTick_cons_ne heb]
        rw [h1]
        exact findClose_clean body' hbt' post
    · have hcb : (c == '\n') = false := by simpa using hc
      unfold findClose
      rw [closeAt_cons_ne hcb]
      exact findClose_clean body' hbt' post

theorem fenceAfterAnchor_fence (lang body post : List Char)
    (hlang : '\n' ∉ lang) (hbody : backtick ∉ body) :
    fenceAfterAnchor (backtick :: backtick :: backtick ::
        (lang ++ '\n' :: (body ++ '\n' :: backtick :: backtick :: backtick :: post)))
      = some post := by
  unfold fenceAfterAnchor
  rw [show tripleTick ((backtick :: backtick :: backtick ::
        (lang ++ '\n' :: (body ++ '\n' :: backtick :: backtick :: backtick :: post))).dropWhile
        isPySpace)
      = some (lang ++ '\n' :: (body ++ '\n' :: backtick :: backtick :: backtick :: post))
    from rfl]
  show (match (lang ++ '\n' :: (body ++ '\n' :: backtick :: backtick :: backtick :: post)).dropWhile
      (fun c => !(c == '\n')) with
    | d :: rest3 => if d == '\n' then findClose rest3 else none
    | [] => none) = some post
  rw [dropWhile_to_nl hlang]
  show findClose (body ++ '\n' :: backtick :: backtick :: backtick :: post) = some post
  exact findClose_clean body hbody post

theorem fenceAfterAnchor_nl (l : List Char) :
    fenceAfterAnchor ('\n' :: l) = fenceAfterAnchor l := by
  unfold fenceAfterAnchor
  rw [List.dropWhile_cons_of_pos (by decide)]

theorem matchHere_false_nl (l : List Char) :
    matchHere false ('\n' :: l) = fenceAfterAnchor l := rfl

theorem scoresGet_flesch (s : TextstatScores) :
    scoresGet s "flesch_reading_ease" = s.flesch_reading_ease := rfl

theorem scoresGet_fog (s : TextstatScores) :
    scoresGet s "gunning_fog" = s.gunning_fog := rfl

theorem scoresGet_cli (s : TextstatScores) :
    scoresGet s "coleman_liau_index" = s.coleman_liau_index := rfl

theorem scoresGet_ari (s : TextstatScores) :
    scoresGet s "automated_readability_index" = s.automated_readability_index := rfl

theorem scoresGet_dc (s : TextstatScores) :
    scoresGet s "dale_chall_readability_score" = s.dale_chall_readability_score := rfl

theorem compositeOfScores_eq (s : TextstatScores) :
    compositeOfScores s =
      100 * ((0.1653977378 : ℚ) * ((s.flesch_reading_ease - 0) / (100 - 0))
        + (0.2228367277 : ℚ) * ((s.gunning_fog - 19) / (6 - 19))
        + (0.1831723411 : ℚ) * ((s.coleman_liau_index - 19) / (6 - 19))
        + (0.2325290236 : ℚ) * ((s.automated_readability_index - 22) / (6 - 22))
        + (0.1960641698 : ℚ) * ((s.dale_chall_readability_score - 11) / ((4.9 : ℚ) - 11))) := by
  simp only [compositeOfScores, readability_metrics, List.foldl, normalize_score,
    scoresGet_flesch, scoresGet_fog, scoresGet_cli, scoresGet_ari, scoresGet_dc]
  ring

theorem compositeChecked_eq (s : TextstatScores) :
    compositeOfScoresChecked s = some (compositeOfScores s) := by
  simp only [compositeOfScoresChecked, compositeOfScores, readability_metrics, List.foldl,
    normalize_score_checked, normalize_score, Option.bind,
    scoresGet_flesch, scoresGet_fog, scoresGet_cli, scoresGet_ari, scoresGet_dc]
  norm_num

theorem hasAlphaNL_cons_of_not_alpha {a : Char} {l : List Char}
    (h : isAsciiAlpha a = false) : hasAlphaNL (a :: l) = hasAlphaNL l := by
  cases l with
  | nil => simp [hasAlphaNL]
  | cons x xs => simp [hasAlphaNL, h]

theorem unwrapHardBreaks_head (d : Char) (rest : List Char) :
    ∃ t, unwrapHardBreaks (d :: rest) = d :: t := by
  cases rest with
  | nil => exact ⟨[], rfl⟩
  | cons e rest2 =>
    simp only [unwrapHardBreaks]
    split
    · exact ⟨_, rfl⟩
    · exact ⟨_, rfl⟩

theorem hasAlphaNL_unwrapHardBreaks (l : List Char) :
    hasAlphaNL (unwrapHardBreaks l) = false := by
  induction l using unwrapHardBreaks.induct with
  | case1 => rfl
  | case2 c => rfl
  | case3 c d rest hcond ih =>
    simp only [unwrapHardBreaks, hcond, if_true]
    have h2 : (isAsciiAlpha c && (' ' == '\n')) = false := by
      simp [show (' ' == '\n') = false from rfl]
    simp only [hasAlphaNL, h2, Bool.false_or]
    rw [hasAlphaNL_cons_of_not_alpha (show isAsciiAlpha ' ' = false from rfl)]
    exact ih
  | case4 c d rest hcond ih =>
    simp only [unwrapHardBreaks, hcond, if_false]
    obtain ⟨t, ht⟩ := unwrapHardBreaks_head d rest
    rw [ht]
    have hcond2 : (isAsciiAlpha c && d == '\n') = false := by
      simpa using hcond
    simp only [hasAlphaNL, hcond2, Bool.false_or]
    rw [← ht]
    exact ih

theorem stripForest_prune (f : Forest) :
    stripForest (pruneRemoved f) = stripForest f := by
  induction f using stripForest.induct with
  | case1 => rfl
  | case2 s rest ih => simp [pruneRemoved, stripForest, ih]
  | case3 tag kids rest htag ih => simp [pruneRemoved, stripForest, htag, ih]
  | case4 tag kids rest htag ihk ihr => simp [pruneRemoved, stripForest, htag, ihk, ihr]

/-!
## The claims
-/

/-- Claim C1: for every input text, the composite score returned by
`calculate_readability` equals 100 times the sum over the five metrics
of `weight * (raw - min) / (max - min)` with the table's constants,
where each raw value is the metric applied to the normalized text; the
exact equation over ℚ shows that no clamping of any normalized value
and no rounding of the result is performed. -/
theorem claim1_composite_formula (ts : Textstat) (render : List Char → Forest)
    (content : List Char) :
    calculate_readability ts render content =
      100 * ((0.1653977378 : ℚ)
          * ((ts.flesch_reading_ease (markdown_to_text render content) - 0) / (100 - 0))
        + (0.2228367277 : ℚ)
          * ((ts.gunning_fog (markdown_to_text render content) - 19) / (6 - 19))
        + (0.1831723411 : ℚ)
          * ((ts.coleman_liau_index (markdown_to_text render content) - 19) / (6 - 19))
        + (0.2325290236 : ℚ)
          * ((ts.automated_readability_index (markdown_to_text render content) - 22) / (6 - 22))
        + (0.1960641698 : ℚ)
          * ((ts.dale_chall_readability_score (markdown_to_text render content) - 11)
              / ((4.9 : ℚ) - 11))) := by
  unfold calculate_readability
  rw [compositeOfScores_eq]
  rfl

/-- Claim C2: a fenced code block — an opening triple-backtick line
with an optional language tag, a body, and a closing triple-backtick
line — is removed entirely by the normalizer's fence-stripping step
and replaced by a single newline, whether the block sits at the start
of the document (second equation) or after preceding text ending in a
newline (first equation; the preceding text contains no backticks and
does not end in extra whitespace, so the displayed fences are the
block's exact delimiters); the block's body (itself backtick-free)
never reaches the output, and the text after the block is scanned
independently. -/
theorem claim2_fence_removal (pre lang body post : List Char)
    (hlang : '\n' ∉ lang) (hbody : backtick ∉ body)
    (hpre : pre = [] ∨ (backtick ∉ pre ∧ isPySpace (pre.getLastD ' ') = false)) :
    subFencesAux true (pre ++ '\n' :: backtick :: backtick :: backtick ::
        (lang ++ '\n' :: (body ++ '\n' :: backtick :: backtick :: backtick :: post)))
      = pre ++ '\n' :: subFencesAux false post
    ∧ subFencesAux true (backtick :: backtick :: backtick ::
        (lang ++ '\n' :: (body ++ '\n' :: backtick :: backtick :: backtick :: post)))
      = '\n' :: subFencesAux false post := by
  have hf := fenceAfterAnchor_fence lang body post hlang hbody
  constructor
  · rcases hpre with hpre | ⟨hbt, hlast⟩
    · subst hpre
      rw [List.nil_append]
      have hm : matchHere true ('\n' :: backtick :: backtick :: backtick ::
          (lang ++ '\n' :: (body ++ '\n' :: backtick :: backtick :: backtick :: post)))
          = some post := by
        show fenceAfterAnchor ('\n' :: backtick :: backtick :: backtick ::
          (lang ++ '\n' :: (body ++ '\n' :: backtick :: backtick :: backtick :: post))) = some post
        rw [fenceAfterAnchor_nl]
        exact hf
      rw [subFencesAux_some hm]
      rfl
    · have hne : pre ≠ [] := by
        intro he
        rw [he] at hlast
        exact absurd hlast (by decide)
      rw [subFencesAux_emit _ pre hne hbt hlast true]
      have hm2 : matchHere false ('\n' :: backtick :: backtick :: backtick ::
          (lang ++ '\n' :: (body ++ '\n' :: backtick :: backtick :: backtick :: post)))
          = some post := (matchHere_false_nl _).trans hf
      rw [subFencesAux_some hm2]
  · have hm : matchHere true (backtick :: backtick :: backtick ::
        (lang ++ '\n' :: (body ++ '\n' :: backtick :: backtick :: backtick :: post)))
        = some post := hf
    rw [subFencesAux_some hm]

/-- Claim C2 witness: the fence-removal theorem applied to the
concrete document `"x\n" + "` fenced `py` block with body `hi` + `ok`,
with every hypothesis discharged by computation. -/
theorem claim2_fence_removal_witness :
    subFencesAux true (('x' :: []) ++ '\n' :: backtick :: backtick :: backtick ::
        (('p' :: 'y' :: []) ++ '\n' :: (('h' :: 'i' :: [])
          ++ '\n' :: backtick :: backtick :: backtick :: ('o' :: 'k' :: []))))
      = ('x' :: []) ++ '\n' :: subFencesAux false ('o' :: 'k' :: [])
    ∧ subFencesAux true (backtick :: backtick :: backtick ::
        (('p' :: 'y' :: []) ++ '\n' :: (('h' :: 'i' :: [])
          ++ '\n' :: backtick :: backtick :: backtick :: ('o' :: 'k' :: []))))
      = '\n' :: subFencesAux false ('o' :: 'k' :: []) :=
  claim2_fence_removal ('x' :: []) ('p' :: 'y' :: []) ('h' :: 'i' :: []) ('o' :: 'k' :: [])
    (by decide) (by decide) (Or.inr ⟨by decide, by decide⟩)

/-- Claim C3 counterexample: on the input `"# Heading\n\nSome **bold**
text."` the normalized output does NOT contain the substring
`"Some bold text."` — `''.join(soup.stripped_strings)` strips each
text fragment and joins with no separator, producing
`"Someboldtext."`; the claim asserted the substring is present. -/
theorem claim3_counterexample :
    containsStr (markdown_to_text mdRender ("# Heading\n\nSome **bold** text.").data)
      ("Some bold text.").data = false := by
  unfold markdown_to_text
  rw [stripFences_id_of_no_tick (by decide)]
  decide

/-- Claim C3 as amended: on the input `"# Heading\n\nSome **bold**
text."` the output of `markdown_to_text` is exactly `"Someboldtext."`
(the trimmed fragments are joined with no separator), and in
particular it does not contain the substring `"Heading"`. -/
theorem claim3_amended :
    markdown_to_text mdRender ("# Heading\n\nSome **bold** text.").data
        = ("Someboldtext.").data
      ∧ containsStr (markdown_to_text mdRender ("# Heading\n\nSome **bold** text.").data)
          ("Heading").data = false := by
  constructor
  · unfold markdown_to_text
    rw [stripFences_id_of_no_tick (by decide)]
    decide
  · unfold markdown_to_text
    rw [stripFences_id_of_no_tick (by decide)]
    decide

/-- Claim C4: for an input consisting only of a Markdown pipe table,
the output of `markdown_to_text` is empty (hence in particular empty
or whitespace-only): the table subtree is removed including all its
inner text.  The renderer is spec-modelled (`mdRender`). -/
theorem claim4_table_only_empty :
    markdown_to_text mdRender ("| a | b |\n|---|---|\n| 1 | 2 |").data = [] := by
  unfold markdown_to_text
  rw [stripFences_id_of_no_tick (by decide)]
  decide

/-- Claim C5: for the input `"[label](http://example.com)"` the
output of `markdown_to_text` is exactly `"label"`: the hyperlink
wrapper is dropped and its visible label text kept.  The renderer is
spec-modelled (`mdRender`). -/
theorem claim5_link_label :
    markdown_to_text mdRender ("[label](http://example.com)").data = ("label").data := by
  unfold markdown_to_text
  rw [stripFences_id_of_no_tick (by decide)]
  decide

/-- Claim C6: the composite score is strictly monotonic in each single
raw metric with the others held fixed: strictly increasing in
`flesch_reading_ease` (whose table row has max > min), and strictly
decreasing in `gunning_fog`, `coleman_liau_index`,
`automated_readability_index` and `dale_chall_readability_score`
(whose rows have min > max). -/
theorem claim6_monotonicity :
    (∀ (s : TextstatScores) (x y : ℚ), x < y →
      compositeOfScores {s with flesch_reading_ease := x}
        < compositeOfScores {s with flesch_reading_ease := y})
    ∧ (∀ (s : TextstatScores) (x y : ℚ), x < y →
      compositeOfScores {s with gunning_fog := y}
        < compositeOfScores {s with gunning_fog := x})
    ∧ (∀ (s : TextstatScores) (x y : ℚ), x < y →
      compositeOfScores {s with coleman_liau_index := y}
        < compositeOfScores {s with coleman_liau_index := x})
    ∧ (∀ (s : TextstatScores) (x y : ℚ), x < y →
      compositeOfScores {s with automated_readability_index := y}
        < compositeOfScores {s with automated_readability_index := x})
    ∧ (∀ (s : TextstatScores) (x y : ℚ), x < y →
      compositeOfScores {s with dale_chall_readability_score := y}
        < compositeOfScores {s with dale_chall_readability_score := x}) := by
  refine ⟨?_, ?_, ?_, ?_, ?_⟩ <;>
    (intro s x y h
     rw [compositeOfScores_eq, compositeOfScores_eq]
     simp only
     ring_nf
     linarith)

/-- Claim C6 witness: the monotonicity theorem applied at concrete
scores (all other metrics zero) with raw values 0 < 1. -/
theorem claim6_monotonicity_witness :
    (compositeOfScores {(⟨0, 0, 0, 0, 0⟩ : TextstatScores) with flesch_reading_ease := 0}
      < compositeOfScores {(⟨0, 0, 0, 0, 0⟩ : TextstatScores) with flesch_reading_ease := 1})
    ∧ (compositeOfScores {(⟨0, 0, 0, 0, 0⟩ : TextstatScores) with gunning_fog := 1}
      < compositeOfScores {(⟨0, 0, 0, 0, 0⟩ : TextstatScores) with gunning_fog := 0})
    ∧ (compositeOfScores {(⟨0, 0, 0, 0, 0⟩ : TextstatScores) with coleman_liau_index := 1}
      < compositeOfScores {(⟨0, 0, 0, 0, 0⟩ : TextstatScores) with coleman_liau_index := 0})
    ∧ (compositeOfScores {(⟨0, 0, 0, 0, 0⟩ : TextstatScores) with automated_readability_index := 1}
      < compositeOfScores {(⟨0, 0, 0, 0, 0⟩ : TextstatScores) with automated_readability_index := 0})
    ∧ (compositeOfScores {(⟨0, 0, 0, 0, 0⟩ : TextstatScores) with dale_chall_readability_score := 1}
      < compositeOfScores {(⟨0, 0, 0, 0, 0⟩ : TextstatScores) with dale_chall_readability_score := 0}) :=
  ⟨claim6_monotonicity.1 ⟨0, 0, 0, 0, 0⟩ 0 1 (by norm_num),
   claim6_monotonicity.2.1 ⟨0, 0, 0, 0, 0⟩ 0 1 (by norm_num),
   claim6_monotonicity.2.2.1 ⟨0, 0, 0, 0, 0⟩ 0 1 (by norm_num),
   claim6_monotonicity.2.2.2.1 ⟨0, 0, 0, 0, 0⟩ 0 1 (by norm_num),
   claim6_monotonicity.2.2.2.2 ⟨0, 0, 0, 0, 0⟩ 0 1 (by norm_num)⟩

/-- Claim C7: for empty or whitespace-only input text the scorer
raises no division-by-zero — the checked scorer (where an empty
calibration range yields `none`, modelling a Python
`ZeroDivisionError`) returns `some` of the value of
`calculate_readability`.  The five textstat formulas are total
functions per the spec (§7), modelled by the `Textstat` parameter. -/
theorem claim7_empty_input_defined (ts : Textstat) (render : List Char → Forest)
    (content : List Char) (h : content.all isPySpace = true) :
    calculate_readability_checked ts render content
      = some (calculate_readability ts render content) := by
  unfold calculate_readability_checked calculate_readability
  exact compositeChecked_eq _

/-- Claim C7 witness: the theorem applied at the empty input with
all-zero metric functions and an empty rendering. -/
theorem claim7_empty_input_defined_witness :
    calculate_readability_checked
        ⟨fun _ => 0, fun _ => 0, fun _ => 0, fun _ => 0, fun _ => 0⟩
        (fun _ => Forest.nil) []
      = some (calculate_readability
          ⟨fun _ => 0, fun _ => 0, fun _ => 0, fun _ => 0, fun _ => 0⟩
          (fun _ => Forest.nil) []) :=
  claim7_empty_input_defined ⟨fun _ => 0, fun _ => 0, fun _ => 0, fun _ => 0, fun _ => 0⟩
    (fun _ => Forest.nil) [] (by decide)

/-- Claim C8: the five weights of the fixed metric table sum to
exactly 1 as rationals, and every weight is positive, so the composite
score is 100 times a convex combination of the normalized metric
values. -/
theorem claim8_weights_sum_one :
    (readability_metrics.map (fun p => p.2.weight)).sum = 1
      ∧ ∀ p ∈ readability_metrics, 0 < p.2.weight := by
  constructor
  · simp [readability_metrics]
    norm_num
  · intro p hp
    simp [readability_metrics] at hp
    rcases hp with h | h | h | h | h <;> rw [h] <;> norm_num

/-- Claim C9: structural elements are decomposed before hyperlink
unwrapping, so nothing under a removed-tag element — in particular any
hyperlink and its label nested there — contributes text to the
normalized output: the output is invariant under erasing the entire
contents of every removed-tag element (`pruneRemoved`), and a link
inside a blockquote concretely yields empty output. -/
theorem claim9_removed_subtrees_inert :
    (∀ (render : List Char → Forest) (s : List Char),
      markdown_to_text (fun x => pruneRemoved (render x)) s = markdown_to_text render s)
    ∧ markdown_to_text
        (fun _ => forestOf [Node.elem "blockquote"
          (forestOf [Node.elem "a" (forestOf [Node.text ('h' :: 'i' :: [])])])]) []
      = [] := by
  constructor
  · intro render s
    unfold markdown_to_text
    rw [stripForest_prune]
  · unfold markdown_to_text
    rw [stripFences_id_of_no_tick (by decide)]
    decide

/-- Claim C10: for every input (and every rendering), the string
returned by `markdown_to_text` contains no newline immediately
preceded by an ASCII letter; and a newline preceded by a non-letter
(here a digit) is not rewritten and remains in the output. -/
theorem claim10_no_alpha_newline :
    (∀ (render : List Char → Forest) (s : List Char),
      hasAlphaNL (markdown_to_text render s) = false)
    ∧ markdown_to_text (fun _ => forestOf [Node.text ('1' :: '\n' :: 'x' :: [])]) []
      = '1' :: '\n' :: 'x' :: [] := by
  constructor
  · intro render s
    unfold markdown_to_text
    exact hasAlphaNL_unwrapHardBreaks _
  · unfold markdown_to_text
    rw [stripFences_id_of_no_tick (by decide)]
    decide
